import Mathlib

/-!
Verification of the Node Edit & Path-Synchronization Engine
(`src/features/modals/NodeModal/index.tsx`).

Modelling conventions, used consistently throughout:

* JSON-like values are modelled by the inductive `JValue`; JavaScript numbers
  are modelled on their integer fragment (`Int`), so numeric string conversion
  (`Number(...)`, `String(...)`, JSON numeric literals) is modelled on decimal
  integer numerals.  No claim below depends on non-integer numerics.
* Plain-object records (`Record<string, string>`, parsed JSON objects) are
  modelled as partial maps / association lists keyed by strings; properties
  inherited from JavaScript prototypes are not modelled.
* The file is an ES module, hence strict mode: assigning a property on a
  primitive value throws, which the model renders as `Except.error ()`.
-/

/-- A JSON-like value: the canonical Document tree of the spec (§3).
JavaScript numbers are modelled on their integer fragment. -/
inductive JValue where
  | null
  | bool (b : Bool)
  | num (n : Int)
  | str (s : String)
  | arr (elems : List JValue)
  | obj (fields : List (String × JValue))

mutual

/-- JavaScript `String(v)` / template-literal conversion of a value. -/
def jsStringOfValue : JValue → String
  | .null => "null"
  | .bool b => cond b "true" "false"
  | .num n => toString n
  | .str s => s
  | .arr xs => jsStringOfList xs
  | .obj _ => "[object Object]"

/-- JavaScript `Array.prototype.join(",")`, as used by `String(someArray)`:
`null` elements render as the empty string. -/
def jsStringOfList : List JValue → String
  | [] => ""
  | x :: xs =>
    (match x with
      | .null => ""
      | v => jsStringOfValue v) ++
    (match xs with
      | [] => ""
      | _ :: _ => ",") ++
    jsStringOfList xs

end

/-- JavaScript whitespace for `Number(...)` trimming. -/
def isJsWs (c : Char) : Bool := c = ' ' || c = '\t' || c = '\n' || c = '\r'

/-- Trim leading and trailing whitespace from a character list. -/
def trimChars (cs : List Char) : List Char :=
  ((cs.dropWhile isJsWs).reverse.dropWhile isJsWs).reverse

/-- Decimal digit run to `Nat` (helper for the `Number(...)` model). -/
def digitsToNat (cs : List Char) : Option Nat :=
  if cs ≠ [] ∧ cs.all (fun c => c.isDigit) then
    some (cs.foldl (fun a c => a * 10 + (c.toNat - 48)) 0)
  else none

/-- JavaScript `Number(val)` on the integer fragment: leading/trailing
whitespace is trimmed, the empty string converts to `0`, an optional sign
followed by decimal digits converts to the signed value, and anything else
is `NaN`, modelled as `none`. -/
def jsNumberOfString (s : String) : Option Int :=
  match trimChars s.toList with
  | [] => some 0
  | '-' :: rest => (digitsToNat rest).map (fun n => -(n : Int))
  | '+' :: rest => (digitsToNat rest).map (fun n => (n : Int))
  | t => (digitsToNat t).map (fun n => (n : Int))

/-- `coerceValue` (index.tsx lines 57-64): `"null"`, `"true"`, `"false"`
literals; otherwise a number exactly when `Number(val)` is not `NaN` and
`String(Number(val))` round-trips to the input; otherwise the string itself. -/
def coerceValue (val : String) : JValue :=
  if val = "null" then .null
  else if val = "true" then .bool true
  else if val = "false" then .bool false
  else
    match jsNumberOfString val with
    | some n => if toString n = val then .num n else .str val
    | none => .str val

example : coerceValue "42" = .num 42 := rfl
example : coerceValue "042" = .str "042" := rfl
example : coerceValue "" = .str "" := rfl
example : coerceValue "-7" = .num (-7) := rfl
example : coerceValue "abc" = .str "abc" := rfl
example : coerceValue "null" = .null := rfl

/-- One Field Row of a node's flattened view (§3): `key` optional, `value`
scalar-or-null (arbitrary `JValue` in the model), `type` the kind label. -/
structure Row where
  key : Option String
  value : JValue
  type : String

/-- Truthiness of `row.key` in JavaScript: present and non-empty. -/
def keyPresent : Option String → Bool
  | some k => k ≠ ""
  | none => false

/-- The key of a row, defaulting to `""` (only used behind `keyPresent`). -/
def rowKey (r : Row) : String := r.key.getD ""

/-- `row.type !== "array" && row.type !== "object" && row.key`
(index.tsx lines 45, 71, 189). -/
def rowEditable (r : Row) : Bool :=
  r.type != "array" && r.type != "object" && keyPresent r.key

/-- A field update as produced by the diff (lines 74): the row's position
and the coerced new value. -/
structure Update where
  index : Nat
  value : JValue

/-- The diff computation of `handleSaveClick` (lines 69-79): map each row,
with its index, to an update when the row is editable, the edit session
holds a defined pending text for its key, and that text differs from the
row's current value rendered as text; then drop the `null` entries. -/
def computeUpdates (rows : List Row) (editFields : String → Option String) : List Update :=
  rows.enum.filterMap fun p =>
    if rowEditable p.2 then
      match editFields (rowKey p.2) with
      | some newValue =>
        if jsStringOfValue p.2.value ≠ newValue then some ⟨p.1, coerceValue newValue⟩
        else none
      | none => none
    else none

/-- `String(row.value ?? "")` (line 46): `null` coalesces to the empty string. -/
def seedString (v : JValue) : String :=
  match v with
  | .null => ""
  | v => jsStringOfValue v

/-- The edit-field seeding effect (lines 41-51): starting from the empty
record, store the seed string of every editable row under its key, later
rows overwriting earlier ones. -/
def seedFields (rows : List Row) : String → Option String :=
  rows.foldl
    (fun fields row =>
      if rowEditable row then
        fun k => if k = rowKey row then some (seedString row.value) else fields k
      else fields)
    (fun _ => none)

example :
    computeUpdates
      [{ key := some "name", value := .str "Bob", type := "string" },
       { key := some "age", value := .num 30, type := "number" }]
      (fun k => if k = "age" then some "31" else none) =
    [⟨1, .num 31⟩] := rfl

example :
    computeUpdates [{ key := some "a", value := .null, type := "null" }]
      (seedFields [{ key := some "a", value := .null, type := "null" }]) =
    [⟨0, .str ""⟩] := rfl

/-- JavaScript property read `obj[k]` on a plain object (first match). -/
def lookupField : List (String × JValue) → String → Option JValue
  | [], _ => none
  | (k', v') :: rest, k => if k' = k then some v' else lookupField rest k

/-- JavaScript property assignment `obj[k] = v` on a plain object, modelled
on insertion-ordered association lists: overwrite the first matching key in
place, or append a fresh key at the end.  The stored list records insertion
order; JavaScript's enumeration order (array-index keys first) is recovered
from it at serialization time by `enumFields` / `enumTree`. -/
def setKey : List (String × JValue) → String → JValue → List (String × JValue)
  | [], k, v => [(k, v)]
  | (k', v') :: rest, k, v =>
    if k' = k then (k, v) :: rest else (k', v') :: setKey rest k v

/-- The keys of an association-list object, in order. -/
def keysOf (fs : List (String × JValue)) : List String := fs.map Prod.fst

/-- `n` spaces of indentation. -/
def padN (n : Nat) : String := String.mk (List.replicate n ' ')

/-- Lowercase hexadecimal digit. -/
def hexDigitChar (n : Nat) : Char :=
  if n < 10 then Char.ofNat (48 + n) else Char.ofNat (87 + n)

/-- `JSON.stringify` escaping of one character inside a string literal. -/
def escapeJsonChar (c : Char) : String :=
  if c = '"' then "\\\""
  else if c = '\\' then "\\\\"
  else if c = '\n' then "\\n"
  else if c = '\r' then "\\r"
  else if c = '\t' then "\\t"
  else if c = Char.ofNat 8 then "\\b"
  else if c = Char.ofNat 12 then "\\f"
  else if c.toNat < 32 then
    "\\u00" ++ String.mk [hexDigitChar (c.toNat / 16), hexDigitChar (c.toNat % 16)]
  else String.singleton c

/-- `JSON.stringify` of a string value. -/
def quoteJson (s : String) : String :=
  "\"" ++ String.join (s.toList.map escapeJsonChar) ++ "\""

/-- A canonical array index denoted by a string, if any (used both for
array element access and for object enumeration order; the JavaScript
2^32 array-index bound is not modelled, consistent with the integer
fragment). -/
def strAsIndex (s : String) : Option Nat :=
  match digitsToNat s.toList with
  | some n => if toString n = s then some n else none
  | none => none

/-- Insert one array-index member into a list sorted by ascending index. -/
def insertIdxMember (p : Nat × String × JValue) :
    List (Nat × String × JValue) → List (Nat × String × JValue)
  | [] => [p]
  | q :: rest => if p.1 < q.1 then p :: q :: rest else q :: insertIdxMember p rest

/-- Sort array-index members by ascending index (insertion sort). -/
def sortIdxMembers : List (Nat × String × JValue) → List (Nat × String × JValue)
  | [] => []
  | p :: rest => insertIdxMember p (sortIdxMembers rest)

/-- JavaScript own-property enumeration order for a plain object whose
field list records insertion order: canonical array-index keys first, in
ascending numeric order, then the remaining keys in insertion order.
`JSON.stringify` serializes object members in this order. -/
def enumFields (fs : List (String × JValue)) : List (String × JValue) :=
  (sortIdxMembers
      (fs.filterMap (fun p =>
        match strAsIndex p.1 with
        | some n => some (n, p.1, p.2)
        | none => none))).map (fun q => (q.2.1, q.2.2)) ++
    fs.filter (fun p => (strAsIndex p.1).isNone)

mutual

/-- `JSON.stringify(v, null, 2)` at nesting indent `ind` (the indent of the
value's closing bracket); members are printed at `ind + 2`. -/
def stringifyVal : JValue → Nat → String
  | .null, _ => "null"
  | .bool b, _ => cond b "true" "false"
  | .num n, _ => toString n
  | .str s, _ => quoteJson s
  | .arr [], _ => "[]"
  | .arr (x :: xs), ind =>
    "[\n" ++ String.intercalate ",\n" (stringifyItems (x :: xs) (ind + 2)) ++
      "\n" ++ padN ind ++ "]"
  | .obj [], _ => "\x7b\x7d"
  | .obj (f :: fs), ind =>
    "\x7b\n" ++ String.intercalate ",\n" (stringifyFields (f :: fs) (ind + 2)) ++
      "\n" ++ padN ind ++ "\x7d"

/-- Pretty-printed array items, each on its own indented line. -/
def stringifyItems : List JValue → Nat → List String
  | [], _ => []
  | x :: xs, ind => (padN ind ++ stringifyVal x ind) :: stringifyItems xs ind

/-- Pretty-printed object members, each on its own indented line. -/
def stringifyFields : List (String × JValue) → Nat → List String
  | [], _ => []
  | (k, v) :: fs, ind =>
    (padN ind ++ quoteJson k ++ ": " ++ stringifyVal v ind) :: stringifyFields fs ind

end

mutual

/-- Recursively reorder every object's members into JavaScript enumeration
order (array-index keys first, ascending); a tree stored in insertion
order is passed through this normalization when it is serialized. -/
def enumTree : JValue → JValue
  | .obj fs => .obj (enumFields (enumTreeFields fs))
  | .arr xs => .arr (enumTreeList xs)
  | .null => .null
  | .bool b => .bool b
  | .num n => .num n
  | .str s => .str s

/-- `enumTree` applied to every array element. -/
def enumTreeList : List JValue → List JValue
  | [] => []
  | x :: xs => enumTree x :: enumTreeList xs

/-- `enumTree` applied to every object member value. -/
def enumTreeFields : List (String × JValue) → List (String × JValue)
  | [] => []
  | (k, v) :: fs => (k, enumTree v) :: enumTreeFields fs

end

/-- `JSON.stringify(v, null, 2)`: every object's members are enumerated in
JavaScript property order (array-index keys first, in ascending numeric
order, then insertion order) and pretty-printed with 2-space indentation. -/
def jsonStringify (v : JValue) : String := stringifyVal (enumTree v) 0

/-- The keyed-map construction of `normalizeNodeData` (lines 14-19): keep
rows whose kind is not a container and whose key is present, assigning
`obj[row.key] = row.value` in row order. -/
def buildObj (rows : List Row) : List (String × JValue) :=
  rows.foldl
    (fun obj row =>
      if row.type != "array" && row.type != "object" then
        if keyPresent row.key then setKey obj (rowKey row) row.value else obj
      else obj)
    []

/-- `normalizeNodeData` (lines 10-21): `"\x7b\x7d"` for no rows, the bare
value text for a single keyless row, otherwise the 2-space pretty-printed
JSON of the keyed map built from the editable rows. -/
def normalizeNodeData (nodeRows : List Row) : String :=
  match nodeRows with
  | [] => "\x7b\x7d"
  | [row] =>
    if keyPresent row.key then jsonStringify (.obj (buildObj [row]))
    else jsStringOfValue row.value
  | rows => jsonStringify (.obj (buildObj rows))

/-- A path segment (§3): a map key or a sequence index. -/
inductive Seg where
  | str (s : String)
  | idx (n : Nat)
deriving DecidableEq

/-- Display of one path segment (line 26): numbers bare, strings quoted. -/
def segDisplay : Seg → String
  | .idx n => toString n
  | .str s => "\"" ++ s ++ "\""

/-- `jsonPathToString` (lines 24-28). -/
def jsonPathToString (path : Option (List Seg)) : String :=
  match path with
  | none => "$"
  | some p =>
    if p.length = 0 then "$"
    else "$[" ++ String.intercalate "][" (p.map segDisplay) ++ "]"

example : normalizeNodeData [] = "\x7b\x7d" := rfl
example :
    normalizeNodeData [{ key := none, value := .num 5, type := "number" }] = "5" := rfl
example :
    normalizeNodeData
      [{ key := some "a", value := .num 1, type := "number" },
       { key := some "b", value := .arr [], type := "array" }] =
    "\x7b\n  \"a\": 1\n\x7d" := rfl
example : jsonPathToString (some []) = "$" := rfl
example :
    jsonPathToString (some [.str "customer", .idx 0, .str "name"]) =
    "$[\"customer\"][0][\"name\"]" := rfl

/-- The result of a JavaScript property read during navigation: a tree value
or `undefined`. -/
inductive NavValue where
  | val (v : JValue)
  | undefined

/-- A path segment used as a property key (JavaScript coerces numbers). -/
def segAsKey : Seg → String
  | .str s => s
  | .idx n => toString n

/-- A path segment used as an array index. -/
def segAsIndex : Seg → Option Nat
  | .idx n => some n
  | .str s => strAsIndex s

/-- One step of `target = target[seg]` (line 92).  Reading a property of
`undefined` or `null` throws; a missing key or out-of-range index yields
`undefined`; reading a property of another primitive yields `undefined`
(prototype-inherited properties are not modelled). -/
def getProp : NavValue → Seg → Except Unit NavValue
  | .undefined, _ => .error ()
  | .val .null, _ => .error ()
  | .val (.obj fs), seg =>
    .ok (match lookupField fs (segAsKey seg) with
      | some v => .val v
      | none => .undefined)
  | .val (.arr xs), seg =>
    .ok (match segAsIndex seg with
      | some i =>
        match xs[i]? with
        | some v => .val v
        | none => .undefined
      | none => .undefined)
  | .val _, _ => .ok .undefined

/-- The navigation loop of lines 90-93. -/
def nav : NavValue → List Seg → Except Unit NavValue
  | nv, [] => .ok nv
  | nv, seg :: rest =>
    match getProp nv seg with
    | .error e => .error e
    | .ok c => nav c rest

/-- Apply a list of property assignments to an object in order. -/
def assignAll (fs : List (String × JValue)) (kvs : List (String × JValue)) :
    List (String × JValue) :=
  kvs.foldl (fun o p => setKey o p.1 p.2) fs

/-- JavaScript `xs[k] = v` on an array: a canonical in-range index overwrites,
an index at or past the end extends the array (holes serialize as `null`),
and any other key adds a property invisible to `JSON.stringify`. -/
def arrAssign (xs : List JValue) (k : String) (v : JValue) : List JValue :=
  match strAsIndex k with
  | some i =>
    if i < xs.length then xs.set i v
    else xs ++ List.replicate (i - xs.length) .null ++ [v]
  | none => xs

/-- The assignment loop of lines 95-100 at the navigated target.  In strict
mode, assigning a property of `undefined`, `null`, or another primitive
throws; with no assignments to perform nothing happens. -/
def assignNav : NavValue → List (String × JValue) → Except Unit NavValue
  | .val (.obj fs), kvs => .ok (.val (.obj (assignAll fs kvs)))
  | .val (.arr xs), kvs =>
    .ok (.val (.arr (kvs.foldl (fun a p => arrAssign a p.1 p.2) xs)))
  | nv, [] => .ok nv
  | _, _ :: _ => .error ()

/-- Writing a navigated child back into its parent (the functional rendering
of the in-place mutation); only reached when `getProp` yielded the child. -/
def setChildNav : NavValue → Seg → NavValue → NavValue
  | .val (.obj fs), seg, .val c => .val (.obj (setKey fs (segAsKey seg) c))
  | .val (.arr xs), seg, .val c =>
    .val (.arr (match segAsIndex seg with
      | some i => xs.set i c
      | none => xs))
  | nv, _, _ => nv

/-- Lines 90-103 as a recursive tree rewrite: navigate along the path,
apply the assignments at the target, and rebuild the document. -/
def patchNav : NavValue → List Seg → List (String × JValue) → Except Unit NavValue
  | nv, [], kvs => assignNav nv kvs
  | nv, seg :: rest, kvs =>
    match getProp nv seg with
    | .error e => .error e
    | .ok c =>
      match patchNav c rest kvs with
      | .error e => .error e
      | .ok c' => .ok (setChildNav nv seg c')

/-- The key/value assignments derived from the updates (lines 95-100):
`nodeToUpdate.text[u.index]` must exist and have a truthy key. -/
def updateAssignments (rows : List Row) (updates : List Update) :
    List (String × JValue) :=
  updates.filterMap fun u =>
    match rows[u.index]? with
    | some row => if keyPresent row.key then some (rowKey row, u.value) else none
    | none => none

/-- The Document Patcher (§4.5): apply the updates at the node's path inside
a parsed document. -/
def applyUpdatesDoc (doc : JValue) (path : List Seg) (rows : List Row)
    (updates : List Update) : Except Unit NavValue :=
  patchNav (.val doc) path (updateAssignments rows updates)

example :
    applyUpdatesDoc
      (.obj [("customer", .obj [("name", .str "Bob"), ("age", .num 30)])])
      [.str "customer"]
      [{ key := some "name", value := .str "Bob", type := "string" },
       { key := some "age", value := .num 30, type := "number" }]
      [⟨1, .num 31⟩] =
    .ok (.val (.obj [("customer", .obj [("name", .str "Bob"), ("age", .num 31)])])) := rfl

example :
    applyUpdatesDoc
      (.obj [("customer", .obj [("name", .str "Bob"), ("age", .num 30)])])
      [.str "missing", .str "x"]
      [{ key := some "age", value := .num 30, type := "number" }]
      [⟨0, .num 31⟩] =
    .error () := rfl

/-- Skip JSON whitespace. -/
def skipWs : List Char → List Char
  | c :: cs => if c = ' ' || c = '\n' || c = '\t' || c = '\r' then skipWs cs else c :: cs
  | [] => []

/-- Hexadecimal digit value. -/
def hexVal (c : Char) : Option Nat :=
  if '0' ≤ c ∧ c ≤ '9' then some (c.toNat - 48)
  else if 'a' ≤ c ∧ c ≤ 'f' then some (c.toNat - 87)
  else if 'A' ≤ c ∧ c ≤ 'F' then some (c.toNat - 55)
  else none

/-- Parse the body of a JSON string literal (after the opening quote). -/
def parseStringBody : List Char → List Char → Option (String × List Char)
  | _, [] => none
  | acc, '"' :: rest => some (String.mk acc.reverse, rest)
  | acc, '\\' :: 'u' :: h1 :: h2 :: h3 :: h4 :: rest =>
    (match hexVal h1, hexVal h2, hexVal h3, hexVal h4 with
      | some a, some b, some c, some d =>
        parseStringBody (Char.ofNat (((a * 16 + b) * 16 + c) * 16 + d) :: acc) rest
      | _, _, _, _ => none)
  | acc, '\\' :: c :: rest =>
    if c = '"' then parseStringBody ('"' :: acc) rest
    else if c = '\\' then parseStringBody ('\\' :: acc) rest
    else if c = '/' then parseStringBody ('/' :: acc) rest
    else if c = 'n' then parseStringBody ('\n' :: acc) rest
    else if c = 't' then parseStringBody ('\t' :: acc) rest
    else if c = 'r' then parseStringBody ('\r' :: acc) rest
    else if c = 'b' then parseStringBody (Char.ofNat 8 :: acc) rest
    else if c = 'f' then parseStringBody (Char.ofNat 12 :: acc) rest
    else none
  | acc, c :: rest => if c.toNat < 32 then none else parseStringBody (c :: acc) rest

/-- Parse a JSON natural-number literal (no leading zeros except `"0"`). -/
def parseNatLit (cs : List Char) : Option (Nat × List Char) :=
  match cs.takeWhile (fun c => c.isDigit) with
  | [] => none
  | d :: ds =>
    if d = '0' ∧ ds ≠ [] then none
    else some ((d :: ds).foldl (fun a c => a * 10 + (c.toNat - 48)) 0,
      cs.dropWhile (fun c => c.isDigit))

/-- Parse a JSON numeric literal on the integer fragment (a fractional or
exponent part makes the surrounding parse fail). -/
def parseNumberLit (cs : List Char) : Option (JValue × List Char) :=
  match cs with
  | '-' :: rest => (parseNatLit rest).map (fun p => (.num (-(p.1 : Int)), p.2))
  | _ => (parseNatLit cs).map (fun p => (.num (p.1 : Int), p.2))

mutual

/-- Parse one JSON value (fuel-bounded recursive descent). -/
def parseValue : Nat → List Char → Option (JValue × List Char)
  | 0, _ => none
  | fuel + 1, cs =>
    match skipWs cs with
    | 'n' :: 'u' :: 'l' :: 'l' :: rest => some (.null, rest)
    | 't' :: 'r' :: 'u' :: 'e' :: rest => some (.bool true, rest)
    | 'f' :: 'a' :: 'l' :: 's' :: 'e' :: rest => some (.bool false, rest)
    | '"' :: rest => (parseStringBody [] rest).map (fun p => (.str p.1, p.2))
    | '[' :: rest =>
      (match skipWs rest with
        | ']' :: r => some (.arr [], r)
        | r => (parseElems fuel r).map (fun p => (.arr p.1, p.2)))
    | '\x7b' :: rest =>
      (match skipWs rest with
        | '\x7d' :: r => some (.obj [], r)
        | r => (parseMembers fuel r).map
            (fun p => (.obj (p.1.foldl (fun o q => setKey o q.1 q.2) []), p.2)))
    | c :: rest => if c = '-' || c.isDigit then parseNumberLit (c :: rest) else none
    | [] => none

/-- Parse the elements of a non-empty JSON array. -/
def parseElems : Nat → List Char → Option (List JValue × List Char)
  | 0, _ => none
  | fuel + 1, cs =>
    match parseValue fuel cs with
    | none => none
    | some (v, r) =>
      match skipWs r with
      | ',' :: r2 =>
        (match parseElems fuel r2 with
          | some (vs, r3) => some (v :: vs, r3)
          | none => none)
      | ']' :: r2 => some ([v], r2)
      | _ => none

/-- Parse the members of a non-empty JSON object. -/
def parseMembers : Nat → List Char → Option (List (String × JValue) × List Char)
  | 0, _ => none
  | fuel + 1, cs =>
    match skipWs cs with
    | '"' :: r =>
      (match parseStringBody [] r with
        | none => none
        | some (k, r1) =>
          match skipWs r1 with
          | ':' :: r2 =>
            (match parseValue fuel r2 with
              | none => none
              | some (v, r3) =>
                match skipWs r3 with
                | ',' :: r4 =>
                  (match parseMembers fuel r4 with
                    | some (fs, r5) => some ((k, v) :: fs, r5)
                    | none => none)
                | '\x7d' :: r4 => some ([(k, v)], r4)
                | _ => none)
          | _ => none)
    | _ => none

end

/-- `JSON.parse(contents)` on the modelled JSON fragment: `none` models a
thrown `SyntaxError`.  Duplicate object keys follow JavaScript
last-value-wins. -/
def parseJson (s : String) : Option JValue :=
  match parseValue (2 * s.length + 2) s.toList with
  | some (v, rest) =>
    (match skipWs rest with
      | [] => some v
      | _ :: _ => none)
  | none => none

example : parseJson "\x7b\"a\": [1, -2, null], \"b\": \"x\"\x7d" =
    some (.obj [("a", .arr [.num 1, .num (-2), .null]), ("b", .str "x")]) := rfl
example : parseJson "not json" = none := rfl
example : parseJson "" = none := rfl
example : parseJson "\x7b\"a\": 042\x7d" = none := rfl
example : parseJson " true " = some (.bool true) := rfl
example :
    parseJson (stringifyVal (.obj [("a", .arr [.num 1, .str "s\n"]), ("b", .obj [])]) 0) =
    some (.obj [("a", .arr [.num 1, .str "s\n"]), ("b", .obj [])]) := rfl

/-- A Node View (§3): id, optional path, and field rows.  `path` is `none`
when the node carries no path (`nodeToUpdate.path` falsy at line 89; an
empty array is truthy in JavaScript and so is `some []`). -/
structure NodeData where
  id : String
  path : Option (List Seg)
  text : List Row

/-- The shared state touched by `handleSaveClick`: the graph store's node
list and selected node, the document store's text, and the component state
(edit flag, edit fields, refresh keys); `errorLog` records `console.error`
reports. -/
structure AppState where
  nodes : List NodeData
  selectedNode : Option NodeData
  contents : String
  isEditing : Bool
  editFields : String → Option String
  errorLog : List String
  refreshKey : Nat
  codeRefreshKey : Nat

/-- The operational-log message of line 106. -/
def syncMessage : String := "Failed to sync to text editor:"

/-- `handleSaveClick` (lines 66-123).  The Node Store's `updateNodeValues`
is modelled from the spec: an external update contract
`updateValues(id, updates)` over the node list (§6), passed in as a
parameter since its implementation lives outside this module.  A non-empty
diff first applies `updateNodeValues`, then tries to parse the document
text, locate the edited node, patch the tree at its path and write the
re-serialized text back; parse and patch failures are caught and logged;
the selected node is then refreshed from the store, the refresh keys are
bumped and editing ends (the `setTimeout` only delays the last step). -/
def handleSaveClick
    (updateNodeValues : String → List Update → List NodeData → List NodeData)
    (s : AppState) : AppState :=
  match s.selectedNode with
  | none => s
  | some nodeData =>
    let updates := computeUpdates nodeData.text s.editFields
    if updates.isEmpty then { s with isEditing := false }
    else
      let s1 : AppState := { s with nodes := updateNodeValues nodeData.id updates s.nodes }
      let s2 : AppState :=
        match parseJson s1.contents with
        | none => { s1 with errorLog := s1.errorLog ++ [syncMessage] }
        | some parsed =>
          match s1.nodes.find? (fun n => n.id == nodeData.id) with
          | none => s1
          | some nodeToUpdate =>
            match nodeToUpdate.path with
            | none => s1
            | some p =>
              match applyUpdatesDoc parsed p nodeToUpdate.text updates with
              | .ok (.val newDoc) => { s1 with contents := jsonStringify newDoc }
              | .ok .undefined => { s1 with contents := jsonStringify parsed }
              | .error _ => { s1 with errorLog := s1.errorLog ++ [syncMessage] }
      let s3 : AppState :=
        match s2.nodes.find? (fun n => n.id == nodeData.id) with
        | none => s2
        | some updatedNode => { s2 with selectedNode := some updatedNode }
      { s3 with
          refreshKey := s3.refreshKey + 1,
          codeRefreshKey := s3.codeRefreshKey + 1,
          isEditing := false }

lemma stringJoin_cons (a : String) (l : List String) :
    String.join (a :: l) = a ++ String.join l := by
  apply String.ext
  simp [String.join_eq, String.data_append]

lemma intercalateGo_bracket (l : List String) : ∀ acc : String,
    String.intercalate.go acc "][" l ++ "]" =
      acc ++ "]" ++ String.join (l.map (fun a => "[" ++ a ++ "]")) := by
  induction l with
  | nil =>
    intro acc
    apply String.ext
    simp [String.intercalate.go, String.join_eq, String.data_append]
  | cons a as ih =>
    intro acc
    apply String.ext
    have h := congrArg String.data (ih (acc ++ "][" ++ a))
    simp only [String.data_append] at h ⊢
    simp only [String.intercalate.go]
    simp only [List.append_assoc, List.cons_append, List.nil_append] at h ⊢
    rw [h]
    simp [stringJoin_cons, String.data_append, List.append_assoc]

lemma bracketPath_eq_join (x : String) (t : List String) :
    "$[" ++ String.intercalate "][" (x :: t) ++ "]" =
      "$" ++ String.join ((x :: t).map (fun a => "[" ++ a ++ "]")) := by
  apply String.ext
  have h := congrArg String.data (intercalateGo_bracket t x)
  simp only [String.intercalate, List.map_cons, stringJoin_cons]
  simp only [String.data_append] at h ⊢
  simp only [List.append_assoc, List.cons_append, List.nil_append] at h ⊢
  rw [h]

/-- C1: `coerceValue` is a total function of the input string; it returns
`null` for `"null"`, the booleans for `"true"`/`"false"`, and otherwise
returns the numeric conversion of the string exactly when re-stringifying
that number reproduces the input text, returning the original string
verbatim otherwise; in particular `"42"` coerces to the number `42` while
`"042"`, `"abc"` and `""` are returned as strings. -/
theorem coerceValue_spec :
    coerceValue "null" = JValue.null ∧
    coerceValue "true" = JValue.bool true ∧
    coerceValue "false" = JValue.bool false ∧
    (∀ val : String, val ≠ "null" → val ≠ "true" → val ≠ "false" →
      ((∃ n : Int, jsNumberOfString val = some n ∧ toString n = val ∧
          coerceValue val = JValue.num n) ∨
        ((∀ n : Int, jsNumberOfString val = some n → toString n ≠ val) ∧
          coerceValue val = JValue.str val))) ∧
    coerceValue "42" = JValue.num 42 ∧
    coerceValue "042" = JValue.str "042" ∧
    coerceValue "abc" = JValue.str "abc" ∧
    coerceValue "" = JValue.str "" := by
  refine ⟨rfl, rfl, rfl, ?_, rfl, rfl, rfl, rfl⟩
  intro val h1 h2 h3
  unfold coerceValue
  simp only [if_neg h1, if_neg h2, if_neg h3]
  cases hn : jsNumberOfString val with
  | none =>
    refine Or.inr ⟨fun n h => ?_, rfl⟩
    exact Option.noConfusion h
  | some n =>
    by_cases ht : toString n = val
    · exact Or.inl ⟨n, rfl, ht, by simp [ht]⟩
    · refine Or.inr ⟨fun m h => ?_, by simp [ht]⟩
      cases h
      exact ht

/-- Witness for C1 at the input `"7"`. -/
theorem coerceValue_spec_witness :
    (∃ n : Int, jsNumberOfString "7" = some n ∧ toString n = "7" ∧
      coerceValue "7" = JValue.num n) ∨
    ((∀ n : Int, jsNumberOfString "7" = some n → toString n ≠ "7") ∧
      coerceValue "7" = JValue.str "7") :=
  coerceValue_spec.2.2.2.1 "7" (by decide) (by decide) (by decide)

/-- C9: `jsonPathToString` maps the absent and the empty path to `"$"`, and
a non-empty path to `"$"` followed by each segment wrapped in square
brackets in order, integer segments bare and string segments
double-quoted; `["customer", 0, "name"]` formats to
`$["customer"][0]["name"]`. -/
theorem jsonPathToString_spec :
    jsonPathToString none = "$" ∧
    jsonPathToString (some []) = "$" ∧
    (∀ p : List Seg, p ≠ [] →
      jsonPathToString (some p) =
        "$" ++ String.join (p.map (fun seg => "[" ++ segDisplay seg ++ "]"))) ∧
    jsonPathToString (some [.str "customer", .idx 0, .str "name"]) =
      "$[\"customer\"][0][\"name\"]" := by
  refine ⟨rfl, rfl, ?_, rfl⟩
  intro p hp
  match p with
  | x :: t =>
    show "$[" ++ String.intercalate "][" ((x :: t).map segDisplay) ++ "]" = _
    rw [List.map_cons, bracketPath_eq_join (segDisplay x) (t.map segDisplay)]
    rw [← List.map_cons segDisplay x t, List.map_map]
    rfl

/-- Witness for C9 at the path `[3]`. -/
theorem jsonPathToString_spec_witness :
    jsonPathToString (some [Seg.idx 3]) =
      "$" ++ String.join ([Seg.idx 3].map (fun seg => "[" ++ segDisplay seg ++ "]")) :=
  jsonPathToString_spec.2.2.1 [Seg.idx 3] (List.cons_ne_nil _ _)

lemma assignAll_nil (fs : List (String × JValue)) : assignAll fs [] = fs := rfl

lemma assignAll_cons (fs : List (String × JValue)) (k : String) (v : JValue)
    (t : List (String × JValue)) :
    assignAll fs ((k, v) :: t) = assignAll (setKey fs k v) t := rfl

lemma lookupField_setKey_self (fs : List (String × JValue)) (k : String) (v : JValue) :
    lookupField (setKey fs k v) k = some v := by
  induction fs with
  | nil => simp [setKey, lookupField]
  | cons p rest ih =>
    obtain ⟨a, b⟩ := p
    by_cases h : a = k
    · subst h; simp [setKey, lookupField]
    · simp [setKey, lookupField, h, ih]

lemma lookupField_setKey_ne (fs : List (String × JValue)) (k k' : String) (v : JValue)
    (h : k' ≠ k) : lookupField (setKey fs k v) k' = lookupField fs k' := by
  induction fs with
  | nil => simp [setKey, lookupField, Ne.symm h]
  | cons p rest ih =>
    obtain ⟨a, b⟩ := p
    by_cases ha : a = k
    · subst ha; simp [setKey, lookupField, Ne.symm h]
    · by_cases ha' : a = k'
      · subst ha'; simp [setKey, lookupField, ha]
      · simp [setKey, lookupField, ha, ha', ih]

lemma setKey_of_lookup (fs : List (String × JValue)) (k : String) (v : JValue)
    (h : lookupField fs k = some v) : setKey fs k v = fs := by
  induction fs with
  | nil => simp [lookupField] at h
  | cons p rest ih =>
    obtain ⟨a, b⟩ := p
    by_cases ha : a = k
    · subst ha
      simp [lookupField] at h
      simp [setKey, h]
    · simp [lookupField, ha] at h
      simp [setKey, ha, ih h]

lemma mem_keysOf_setKey_self (fs : List (String × JValue)) (k : String) (v : JValue) :
    k ∈ keysOf (setKey fs k v) := by
  induction fs with
  | nil => simp [setKey, keysOf]
  | cons p rest ih =>
    obtain ⟨a, b⟩ := p
    by_cases ha : a = k
    · subst ha; simp [setKey, keysOf]
    · simpa [setKey, keysOf, ha] using Or.inr ih

lemma mem_keysOf_setKey (fs : List (String × JValue)) (k k' : String) (v : JValue)
    (h : k' ∈ keysOf fs) : k' ∈ keysOf (setKey fs k v) := by
  induction fs with
  | nil => simp [keysOf] at h
  | cons p rest ih =>
    obtain ⟨a, b⟩ := p
    have h' : k' = a ∨ k' ∈ keysOf rest := List.mem_cons.mp h
    by_cases ha : a = k
    · subst ha
      rcases h' with h' | h'
      · subst h'; simp [setKey, keysOf]
      · simpa [setKey, keysOf] using Or.inr h'
    · rcases h' with h' | h'
      · subst h'; simp [setKey, ha, keysOf]
      · simpa [setKey, ha, keysOf] using Or.inr (ih h')

lemma setKey_setKey_same (fs : List (String × JValue)) (k : String) (v w : JValue) :
    setKey (setKey fs k v) k w = setKey fs k w := by
  induction fs with
  | nil => simp [setKey]
  | cons p rest ih =>
    obtain ⟨a, b⟩ := p
    by_cases ha : a = k
    · subst ha; simp [setKey]
    · simp [setKey, ha, ih]

lemma setKey_comm_of_mem (fs : List (String × JValue)) (k k' : String) (v v' : JValue)
    (hne : k ≠ k') (hk : k ∈ keysOf fs) :
    setKey (setKey fs k v) k' v' = setKey (setKey fs k' v') k v := by
  induction fs with
  | nil => simp [keysOf] at hk
  | cons p rest ih =>
    obtain ⟨a, b⟩ := p
    by_cases ha : a = k
    · subst ha
      simp [setKey, lookupField, Ne.symm hne, hne]
    · have hk' : k = a ∨ k ∈ keysOf rest := List.mem_cons.mp hk
      rcases hk' with hk' | hk'
      · exact absurd hk'.symm ha
      · by_cases ha' : a = k'
        · subst ha'; simp [setKey, ha, Ne.symm hne]
        · simp [setKey, ha, ha', ih hk']

lemma mem_keysOf_assignAll (fs kvs : List (String × JValue)) (k : String)
    (h : k ∈ keysOf fs) : k ∈ keysOf (assignAll fs kvs) := by
  induction kvs generalizing fs with
  | nil => simpa [assignAll_nil] using h
  | cons p t ih =>
    obtain ⟨a, b⟩ := p
    rw [assignAll_cons]
    exact ih _ (mem_keysOf_setKey _ _ _ _ h)

lemma assignAll_setKey_of_mem (kvs : List (String × JValue)) :
    ∀ (fs : List (String × JValue)) (k : String) (v : JValue),
    k ∈ kvs.map Prod.fst → k ∈ keysOf fs →
    assignAll (setKey fs k v) kvs = assignAll fs kvs := by
  induction kvs with
  | nil => intro fs k v hmem hk; simp at hmem
  | cons p t ih =>
    intro fs k v hmem hk
    obtain ⟨a, b⟩ := p
    by_cases ha : a = k
    · subst ha
      rw [assignAll_cons, assignAll_cons, setKey_setKey_same]
    · have hmem' : k = a ∨ k ∈ t.map Prod.fst := List.mem_cons.mp hmem
      rcases hmem' with hmem | hmem
      · exact absurd hmem.symm ha
      · rw [assignAll_cons, assignAll_cons,
          setKey_comm_of_mem fs k a v b (fun hh => ha hh.symm) hk]
        exact ih _ _ _ hmem (mem_keysOf_setKey _ _ _ _ hk)

lemma lookupField_assignAll_not_mem (kvs : List (String × JValue)) :
    ∀ (fs : List (String × JValue)) (k : String),
    k ∉ kvs.map Prod.fst →
    lookupField (assignAll fs kvs) k = lookupField fs k := by
  induction kvs with
  | nil => intro fs k _; rfl
  | cons p t ih =>
    intro fs k h
    obtain ⟨a, b⟩ := p
    have h1 : k ≠ a := fun hh => h (hh ▸ List.mem_cons_self a (t.map Prod.fst))
    have h2 : k ∉ t.map Prod.fst := fun hh => h (List.mem_cons_of_mem a hh)
    rw [assignAll_cons, ih _ _ h2, lookupField_setKey_ne _ _ _ _ h1]

lemma assignAll_idem (kvs : List (String × JValue)) :
    ∀ fs : List (String × JValue),
    assignAll (assignAll fs kvs) kvs = assignAll fs kvs := by
  induction kvs with
  | nil => intro fs; rfl
  | cons p t ih =>
    intro fs
    obtain ⟨k, v⟩ := p
    rw [assignAll_cons, assignAll_cons]
    by_cases hm : k ∈ t.map Prod.fst
    · rw [assignAll_setKey_of_mem t _ _ _ hm
        (mem_keysOf_assignAll _ _ _ (mem_keysOf_setKey_self fs k v))]
      exact ih _
    · have hlk : lookupField (assignAll (setKey fs k v) t) k = some v := by
        rw [lookupField_assignAll_not_mem t _ _ hm, lookupField_setKey_self]
      rw [setKey_of_lookup _ _ _ hlk]
      exact ih _

lemma setKey_of_not_mem (fs : List (String × JValue)) (k : String) (v : JValue)
    (h : k ∉ keysOf fs) : setKey fs k v = fs ++ [(k, v)] := by
  induction fs with
  | nil => rfl
  | cons p rest ih =>
    obtain ⟨a, b⟩ := p
    have h1 : k ≠ a := fun hh => h (hh ▸ List.mem_cons_self a (keysOf rest))
    have h2 : k ∉ keysOf rest := fun hh => h (List.mem_cons_of_mem a hh)
    simp [setKey, Ne.symm h1, ih h2]

/-- The editable rows as ordered key/value pairs: the spec's reading of the
map `normalizeNodeData` builds. -/
def editableKV (r : Row) : Option (String × JValue) :=
  if rowEditable r then some (rowKey r, r.value) else none

lemma buildObj_step (obj : List (String × JValue)) (row : Row) :
    (if row.type != "array" && row.type != "object" then
      (if keyPresent row.key then setKey obj (rowKey row) row.value else obj)
    else obj) =
      if rowEditable row then setKey obj (rowKey row) row.value else obj := by
  cases hA : (row.type != "array" && row.type != "object") <;>
    cases hK : keyPresent row.key <;> simp [rowEditable, hA, hK]

lemma buildObj_go (rows : List Row) :
    ∀ fs : List (String × JValue),
    (∀ r ∈ rows, rowEditable r = true → rowKey r ∉ keysOf fs) →
    ((rows.filter (fun r => rowEditable r)).map rowKey).Nodup →
    rows.foldl
      (fun obj row => if rowEditable row then setKey obj (rowKey row) row.value else obj)
      fs = fs ++ rows.filterMap editableKV := by
  induction rows with
  | nil => intro fs _ _; simp
  | cons r rest ih =>
    intro fs hdisj hnd
    by_cases he : rowEditable r = true
    · rw [List.foldl_cons, if_pos he,
        setKey_of_not_mem fs (rowKey r) r.value (hdisj r (List.mem_cons_self r rest) he)]
      rw [List.filter_cons_of_pos (by simpa using he)] at hnd
      rw [List.map_cons, List.nodup_cons] at hnd
      rw [ih (fs ++ [(rowKey r, r.value)])
        (fun r' hr' he' => by
          intro hmem
          rw [keysOf, List.map_append] at hmem
          rcases List.mem_append.mp hmem with hmem | hmem
          · exact hdisj r' (List.mem_cons_of_mem r hr') he' hmem
          · simp at hmem
            exact hnd.1 (hmem ▸ List.mem_map_of_mem rowKey
              (List.mem_filter.mpr ⟨hr', by simpa using he'⟩)))
        hnd.2]
      simp [editableKV, he, List.append_assoc]
    · rw [List.foldl_cons, if_neg he]
      rw [List.filter_cons_of_neg (by simpa using he)] at hnd
      rw [ih fs (fun r' hr' => hdisj r' (List.mem_cons_of_mem r hr')) hnd]
      simp [editableKV, he]

lemma buildObj_eq_filterMap (rows : List Row)
    (hnd : ((rows.filter (fun r => rowEditable r)).map rowKey).Nodup) :
    buildObj rows = rows.filterMap editableKV := by
  have hstep :
      buildObj rows = rows.foldl
        (fun obj row => if rowEditable row then setKey obj (rowKey row) row.value else obj)
        [] := by
    unfold buildObj
    congr 1
    funext obj row
    exact buildObj_step obj row
  rw [hstep, buildObj_go rows [] (by intro r _ _ h; simp [keysOf] at h) hnd]
  rfl

/-- C8 counterexample: at the rows with keys `"b"` then `"0"` the program
serializes the integer-like key `"0"` first (JavaScript enumeration order),
so the normalized text is not the row-order rendering of the editable
rows — the claim's "preserving row order" clause fails. -/
theorem normalizeNodeData_rowOrder_counterexample :
    normalizeNodeData
        [⟨some "b", JValue.num 1, "number"⟩, ⟨some "0", JValue.num 2, "number"⟩] ≠
      stringifyVal
        (.obj ([⟨some "b", JValue.num 1, "number"⟩,
                ⟨some "0", JValue.num 2, "number"⟩].filterMap editableKV)) 0 := by
  decide

/-- C8 amended: `normalizeNodeData` of no rows is the literal text of an
empty JSON object; of exactly one keyless row it is that row's value
rendered as bare text; otherwise it is the 2-space pretty-printed JSON of
the map containing exactly the editable rows (kind outside array/object,
key present) in row order, container-kinded rows being excluded regardless
of count — the members being serialized in JavaScript enumeration order
(canonical array-index keys first in ascending numeric order, then the
remaining rows in row order), as the final concrete conjunct shows. -/
theorem normalizeNodeData_spec :
    normalizeNodeData [] = "\x7b\x7d" ∧
    (∀ row : Row, keyPresent row.key = false →
      normalizeNodeData [row] = jsStringOfValue row.value) ∧
    (∀ row : Row, keyPresent row.key = true →
      normalizeNodeData [row] = jsonStringify (.obj ([row].filterMap editableKV))) ∧
    (∀ (r1 r2 : Row) (rest : List Row),
      (((r1 :: r2 :: rest).filter (fun r => rowEditable r)).map rowKey).Nodup →
      normalizeNodeData (r1 :: r2 :: rest) =
        jsonStringify (.obj ((r1 :: r2 :: rest).filterMap editableKV))) ∧
    normalizeNodeData
        [⟨some "b", JValue.num 1, "number"⟩, ⟨some "0", JValue.num 2, "number"⟩] =
      "\x7b\n  \"0\": 2,\n  \"b\": 1\n\x7d" := by
  refine ⟨rfl, ?_, ?_, ?_, by decide⟩
  · intro row h
    simp [normalizeNodeData, h]
  · intro row h
    have hnd : (([row].filter (fun r => rowEditable r)).map rowKey).Nodup := by
      cases he : rowEditable row <;> simp [he]
    simp [normalizeNodeData, h]
    rw [buildObj_eq_filterMap _ hnd]
  · intro r1 r2 rest hnd
    show jsonStringify (.obj (buildObj (r1 :: r2 :: rest))) = _
    rw [buildObj_eq_filterMap _ hnd]

/-- Witness for the amended C8: a bare keyless row, and a two-row node
whose array row is excluded from the preview. -/
theorem normalizeNodeData_spec_witness :
    normalizeNodeData [⟨none, .num 5, "number"⟩] = jsStringOfValue (.num 5) ∧
    normalizeNodeData
        [⟨some "a", .num 1, "number"⟩, ⟨some "b", .arr [], "array"⟩] =
      jsonStringify
        (.obj ([⟨some "a", JValue.num 1, "number"⟩,
                ⟨some "b", JValue.arr [], "array"⟩].filterMap editableKV)) :=
  ⟨normalizeNodeData_spec.2.1 ⟨none, .num 5, "number"⟩ rfl,
   normalizeNodeData_spec.2.2.2.1 ⟨some "a", .num 1, "number"⟩
     ⟨some "b", .arr [], "array"⟩ [] (by decide)⟩

/-- The per-row update decision: the body of the map at lines 70-78. -/
def updOf (i : Nat) (row : Row) (editFields : String → Option String) : Option Update :=
  if rowEditable row then
    match editFields (rowKey row) with
    | some newValue =>
      if jsStringOfValue row.value ≠ newValue then some ⟨i, coerceValue newValue⟩
      else none
    | none => none
  else none

/-- Index-threaded recursion equivalent to the enumerate-then-filter diff. -/
def goUpdates (n : Nat) (rows : List Row) (f : String → Option String) : List Update :=
  match rows with
  | [] => []
  | row :: rest =>
    match updOf n row f with
    | some u => u :: goUpdates (n + 1) rest f
    | none => goUpdates (n + 1) rest f

lemma filterMap_enumFrom_updOf (rows : List Row) : ∀ (n : Nat) (f : String → Option String),
    (List.enumFrom n rows).filterMap (fun p => updOf p.1 p.2 f) = goUpdates n rows f := by
  induction rows with
  | nil => intro n f; rfl
  | cons row rest ih =>
    intro n f
    cases h0 : updOf n row f with
    | some u0 => simp [List.enumFrom, List.filterMap_cons, h0, goUpdates, ih]
    | none => simp [List.enumFrom, List.filterMap_cons, h0, goUpdates, ih]

lemma computeUpdates_eq_goUpdates (rows : List Row) (f : String → Option String) :
    computeUpdates rows f = goUpdates 0 rows f := by
  rw [show computeUpdates rows f =
      (List.enumFrom 0 rows).filterMap (fun p => updOf p.1 p.2 f) from rfl]
  exact filterMap_enumFrom_updOf rows 0 f

lemma updOf_eq_some (i : Nat) (row : Row) (f : String → Option String) (u : Update) :
    updOf i row f = some u ↔
      rowEditable row = true ∧
        ∃ pending, f (rowKey row) = some pending ∧
          jsStringOfValue row.value ≠ pending ∧ u = ⟨i, coerceValue pending⟩ := by
  unfold updOf
  cases he : rowEditable row with
  | false => simp
  | true =>
    cases hf : f (rowKey row) with
    | none => simp
    | some pending =>
      by_cases hd : jsStringOfValue row.value = pending
      · simp [hd]
      · simp [hd, eq_comm]
        exact fun _ hh => hd hh.symm

lemma exists_getElem?_cons {α : Type} (x : α) (l : List α) (Q : Nat → α → Prop) :
    (∃ i r, (x :: l)[i]? = some r ∧ Q i r) ↔
      Q 0 x ∨ ∃ j r, l[j]? = some r ∧ Q (j + 1) r := by
  constructor
  · rintro ⟨i, r, hr, hq⟩
    cases i with
    | zero =>
      simp at hr
      subst hr
      exact Or.inl hq
    | succ j => exact Or.inr ⟨j, r, by simpa using hr, hq⟩
  · rintro (hq | ⟨j, r, hr, hq⟩)
    · exact ⟨0, x, by simp, hq⟩
    · exact ⟨j + 1, r, by simpa using hr, hq⟩

lemma mem_goUpdates (rows : List Row) : ∀ (n : Nat) (f : String → Option String) (u : Update),
    u ∈ goUpdates n rows f ↔
      ∃ i row, rows[i]? = some row ∧ updOf (n + i) row f = some u := by
  induction rows with
  | nil => intro n f u; simp [goUpdates]
  | cons row rest ih =>
    intro n f u
    rw [exists_getElem?_cons row rest (fun i r => updOf (n + i) r f = some u)]
    cases h0 : updOf n row f with
    | some u0 =>
      constructor
      · intro hu
        rcases List.mem_cons.mp (by simpa [goUpdates, h0] using hu) with hu | hu
        · exact Or.inl (by rw [Nat.add_zero, h0, hu])
        · obtain ⟨j, r, hr, hq⟩ := (ih (n + 1) f u).mp hu
          exact Or.inr ⟨j, r, hr, by rw [show n + (j + 1) = n + 1 + j by omega]; exact hq⟩
      · intro hu
        rcases hu with hu | ⟨j, r, hr, hq⟩
        · rw [Nat.add_zero, h0] at hu
          cases Option.some.inj hu
          simp [goUpdates, h0]
        · have : u ∈ goUpdates (n + 1) rest f :=
            (ih (n + 1) f u).mpr ⟨j, r, hr, by rw [show n + 1 + j = n + (j + 1) by omega]; exact hq⟩
          simp [goUpdates, h0, this]
    | none =>
      constructor
      · intro hu
        obtain ⟨j, r, hr, hq⟩ := (ih (n + 1) f u).mp (by simpa [goUpdates, h0] using hu)
        exact Or.inr ⟨j, r, hr, by rw [show n + (j + 1) = n + 1 + j by omega]; exact hq⟩
      · intro hu
        rcases hu with hu | ⟨j, r, hr, hq⟩
        · rw [Nat.add_zero, h0] at hu; exact Option.noConfusion hu
        · have : u ∈ goUpdates (n + 1) rest f :=
            (ih (n + 1) f u).mpr ⟨j, r, hr, by rw [show n + 1 + j = n + (j + 1) by omega]; exact hq⟩
          simpa [goUpdates, h0] using this

lemma updOf_index (i : Nat) (row : Row) (f : String → Option String) (u : Update)
    (h : updOf i row f = some u) : u.index = i := by
  obtain ⟨-, p, -, -, hu⟩ := (updOf_eq_some i row f u).mp h
  rw [hu]

lemma goUpdates_index_ge (rows : List Row) : ∀ (n : Nat) (f : String → Option String)
    (u : Update), u ∈ goUpdates n rows f → n ≤ u.index := by
  induction rows with
  | nil => intro n f u hu; simp [goUpdates] at hu
  | cons row rest ih =>
    intro n f u hu
    cases h0 : updOf n row f with
    | some u0 =>
      rcases List.mem_cons.mp (by simpa [goUpdates, h0] using hu) with hu | hu
      · rw [hu, updOf_index n row f u0 h0]
      · exact Nat.le_of_succ_le (ih (n + 1) f u hu)
    | none =>
      exact Nat.le_of_succ_le (ih (n + 1) f u (by simpa [goUpdates, h0] using hu))

lemma goUpdates_pairwise (rows : List Row) : ∀ (n : Nat) (f : String → Option String),
    (goUpdates n rows f).Pairwise (fun a b => a.index < b.index) := by
  induction rows with
  | nil => intro n f; simp [goUpdates]
  | cons row rest ih =>
    intro n f
    cases h0 : updOf n row f with
    | some u0 =>
      have : (u0 :: goUpdates (n + 1) rest f).Pairwise (fun a b => a.index < b.index) :=
        List.pairwise_cons.mpr
          ⟨fun b hb => by
            rw [updOf_index n row f u0 h0]
            exact Nat.lt_of_lt_of_le (Nat.lt_succ_self n) (goUpdates_index_ge rest (n + 1) f b hb),
           ih (n + 1) f⟩
      simpa [goUpdates, h0] using this
    | none => simpa [goUpdates, h0] using ih (n + 1) f

/-- C6: the diff contains an update exactly for the rows whose kind is not a
container, whose key is present, for which the session holds a defined
pending text differing from the row's value rendered as text; each update
carries the row's index and `coerceValue` of the pending text, updates
appear in row order with strictly increasing indices (so no two share a
row), and session keys matching no row contribute nothing (every update
arises from a row). -/
theorem computeUpdates_spec (rows : List Row) (fields : String → Option String) :
    (∀ u : Update, u ∈ computeUpdates rows fields ↔
      ∃ i row, rows[i]? = some row ∧ rowEditable row = true ∧
        ∃ pending, fields (rowKey row) = some pending ∧
          jsStringOfValue row.value ≠ pending ∧
          u = ⟨i, coerceValue pending⟩) ∧
    (computeUpdates rows fields).Pairwise (fun a b => a.index < b.index) := by
  constructor
  · intro u
    rw [computeUpdates_eq_goUpdates, mem_goUpdates rows 0 fields u]
    constructor
    · rintro ⟨i, row, hrow, hupd⟩
      rw [Nat.zero_add] at hupd
      obtain ⟨he, p, hp, hne, hu⟩ := (updOf_eq_some i row fields u).mp hupd
      exact ⟨i, row, hrow, he, p, hp, hne, hu⟩
    · rintro ⟨i, row, hrow, he, p, hp, hne, hu⟩
      exact ⟨i, row, hrow, by
        rw [Nat.zero_add]
        exact (updOf_eq_some i row fields u).mpr ⟨he, p, hp, hne, hu⟩⟩
  · rw [computeUpdates_eq_goUpdates]
    exact goUpdates_pairwise rows 0 fields

/-- C3 counterexample: for a node with a single null-valued row, the edit
session seeded at edit start (which stores `String(row.value ?? "") = ""`)
does not reproduce `String(row.value) = "null"`, so the diff against the
untouched session is not empty. -/
theorem diff_seed_null_counterexample :
    computeUpdates [⟨some "a", JValue.null, "null"⟩]
      (seedFields [⟨some "a", JValue.null, "null"⟩]) ≠ [] := by
  intro h
  rw [show computeUpdates [⟨some "a", JValue.null, "null"⟩]
      (seedFields [⟨some "a", JValue.null, "null"⟩]) =
      [⟨0, JValue.str ""⟩] from rfl] at h
  exact List.noConfusion h

/-- The seed stored under key `k` after processing `rows` left to right:
the last editable row with that key wins. -/
def lastSeed : List Row → String → Option String
  | [], _ => none
  | row :: rest, k =>
    match lastSeed rest k with
    | some s => some s
    | none =>
      if rowEditable row = true ∧ rowKey row = k then some (seedString row.value)
      else none

lemma seedFields_aux (rows : List Row) : ∀ (f : String → Option String) (k : String),
    rows.foldl
      (fun fields row =>
        if rowEditable row then
          fun k' => if k' = rowKey row then some (seedString row.value) else fields k'
        else fields) f k =
      (match lastSeed rows k with
        | some s => some s
        | none => f k) := by
  induction rows with
  | nil => intro f k; rfl
  | cons row rest ih =>
    intro f k
    rw [List.foldl_cons]
    by_cases he : rowEditable row = true
    · rw [if_pos he, ih]
      cases hl : lastSeed rest k with
      | some s => simp [lastSeed, hl]
      | none =>
        by_cases hk : k = rowKey row
        · subst hk
          simp [lastSeed, hl, he]
        · simp [lastSeed, hl, he, hk, Ne.symm hk]
    · rw [if_neg he, ih]
      cases hl : lastSeed rest k with
      | some s => simp [lastSeed, hl]
      | none => simp [lastSeed, hl, he]

lemma seedFields_eq_lastSeed (rows : List Row) (k : String) :
    seedFields rows k =
      (match lastSeed rows k with
        | some s => some s
        | none => none) := by
  unfold seedFields
  exact seedFields_aux rows (fun _ => none) k

lemma lastSeed_of_not_mem (rows : List Row) (k : String)
    (h : ∀ r ∈ rows, rowEditable r = true → rowKey r ≠ k) :
    lastSeed rows k = none := by
  induction rows with
  | nil => rfl
  | cons row rest ih =>
    rw [lastSeed, ih (fun r hr => h r (List.mem_cons_of_mem row hr))]
    by_cases he : rowEditable row = true
    · simp [he, h row (List.mem_cons_self row rest) he]
    · simp [he]

lemma lastSeed_self (rows : List Row)
    (hnd : ((rows.filter (fun r => rowEditable r)).map rowKey).Nodup) :
    ∀ r ∈ rows, rowEditable r = true →
      lastSeed rows (rowKey r) = some (seedString r.value) := by
  induction rows with
  | nil => intro r hr; simp at hr
  | cons x rest ih =>
    intro r hr he
    rcases List.mem_cons.mp hr with hr | hr
    · subst hr
      rw [List.filter_cons_of_pos (by simpa using he), List.map_cons,
        List.nodup_cons] at hnd
      have hnone : lastSeed rest (rowKey r) = none :=
        lastSeed_of_not_mem rest (rowKey r) (fun r' hr' he' hkk =>
          hnd.1 (hkk ▸ List.mem_map_of_mem rowKey
            (List.mem_filter.mpr ⟨hr', by simpa using he'⟩)))
      rw [lastSeed, hnone]
      simp [he]
    · have hnd' : ((rest.filter (fun r => rowEditable r)).map rowKey).Nodup := by
        by_cases hx : rowEditable x = true
        · rw [List.filter_cons_of_pos (by simpa using hx), List.map_cons,
            List.nodup_cons] at hnd
          exact hnd.2
        · rwa [List.filter_cons_of_neg (by simpa using hx)] at hnd
      rw [lastSeed, ih hnd' r hr he]

lemma seedString_eq_jsString (v : JValue) (h : v ≠ JValue.null) :
    seedString v = jsStringOfValue v := by
  cases v with
  | null => exact absurd rfl h
  | bool b => rfl
  | num n => rfl
  | str s => rfl
  | arr xs => rfl
  | obj fs => rfl

lemma goUpdates_nil_of_mirror (rows : List Row) : ∀ (n : Nat) (f : String → Option String),
    (∀ r ∈ rows, rowEditable r = true → f (rowKey r) = some (jsStringOfValue r.value)) →
    goUpdates n rows f = [] := by
  induction rows with
  | nil => intro n f _; rfl
  | cons row rest ih =>
    intro n f h
    have h0 : updOf n row f = none := by
      unfold updOf
      by_cases he : rowEditable row = true
      · rw [if_pos (by simpa using he), h row (List.mem_cons_self row rest) he]
        simp
      · rw [if_neg (by simpa using he)]
    simp [goUpdates, h0, ih (n + 1) f (fun r hr => h r (List.mem_cons_of_mem row hr))]

/-- C3 amended: the diff against the session seeded from the rows at edit
start is empty, for rows sequences whose editable rows carry pairwise
distinct keys and no null value.  (A null-valued row seeds as `""` but
diffs against `"null"`, see the counterexample, so the null case must be
excluded; distinct keys are required for the session to mirror every row.) -/
theorem diff_after_seed_empty (rows : List Row)
    (hnd : ((rows.filter (fun r => rowEditable r)).map rowKey).Nodup)
    (hnn : ∀ r ∈ rows, rowEditable r = true → r.value ≠ JValue.null) :
    computeUpdates rows (seedFields rows) = [] := by
  rw [computeUpdates_eq_goUpdates]
  apply goUpdates_nil_of_mirror rows 0 (seedFields rows)
  intro r hr he
  rw [seedFields_eq_lastSeed, lastSeed_self rows hnd r hr he,
    seedString_eq_jsString r.value (hnn r hr he)]

/-- Witness for the amended C3 at a two-row node. -/
theorem diff_after_seed_empty_witness :
    computeUpdates
      [⟨some "name", JValue.str "Bob", "string"⟩, ⟨some "age", JValue.num 30, "number"⟩]
      (seedFields
        [⟨some "name", JValue.str "Bob", "string"⟩,
         ⟨some "age", JValue.num 30, "number"⟩]) = [] :=
  diff_after_seed_empty
    [⟨some "name", JValue.str "Bob", "string"⟩, ⟨some "age", JValue.num 30, "number"⟩]
    (by decide)
    (by
      intro r hr he
      rcases List.mem_cons.mp hr with h | h
      · subst h; exact fun hh => JValue.noConfusion hh
      rcases List.mem_cons.mp h with h | h
      · subst h; exact fun hh => JValue.noConfusion hh
      · simp at h)

lemma getElem?_lt_length : ∀ (xs : List JValue) (i : Nat) (v : JValue),
    xs[i]? = some v → i < xs.length := by
  intro xs
  induction xs with
  | nil => intro i v h; simp at h
  | cons x rest ih =>
    intro i v h
    cases i with
    | zero => simp
    | succ j => simpa using ih j v (by simpa using h)

lemma getElem?_set_lt : ∀ (xs : List JValue) (i : Nat) (a : JValue),
    i < xs.length → (xs.set i a)[i]? = some a := by
  intro xs
  induction xs with
  | nil => intro i a h; simp at h
  | cons x rest ih =>
    intro i a h
    cases i with
    | zero => simp
    | succ j => simpa using ih j a (by simpa using h)

lemma set_set_same : ∀ (xs : List JValue) (i : Nat) (a b : JValue),
    (xs.set i a).set i b = xs.set i b := by
  intro xs
  induction xs with
  | nil => intro i a b; rfl
  | cons x rest ih =>
    intro i a b
    cases i with
    | zero => rfl
    | succ j => simp [List.set, ih]

lemma nav_undef_ok (p : List Seg) (t : NavValue) (h : nav .undefined p = .ok t) :
    t = .undefined := by
  cases p with
  | nil =>
    simp [nav] at h
    exact h.symm
  | cons s rest => simp [nav, getProp] at h

lemma assignNav_obj (fs kvs : List (String × JValue)) :
    assignNav (.val (.obj fs)) kvs = .ok (.val (.obj (assignAll fs kvs))) := by
  cases kvs <;> rfl

lemma patch_idem_aux (kvs : List (String × JValue)) (path : List Seg) :
    ∀ (doc : JValue) (fs : List (String × JValue)),
    nav (.val doc) path = .ok (.val (.obj fs)) →
    ∀ r : NavValue, patchNav (.val doc) path kvs = .ok r →
    ∃ d1 : JValue, r = .val d1 ∧ patchNav (.val d1) path kvs = .ok (.val d1) := by
  induction path with
  | nil =>
    intro doc fs hnav r hr
    have hdoc : doc = .obj fs := by
      simp [nav] at hnav
      exact hnav
    subst hdoc
    have he1 : patchNav (.val (.obj fs)) [] kvs = .ok (.val (.obj (assignAll fs kvs))) := by
      rw [patchNav, assignNav_obj]
    rw [he1] at hr
    refine ⟨.obj (assignAll fs kvs), (Except.ok.inj hr).symm, ?_⟩
    have he2 : patchNav (.val (.obj (assignAll fs kvs))) [] kvs =
        .ok (.val (.obj (assignAll (assignAll fs kvs) kvs))) := by
      rw [patchNav, assignNav_obj]
    rw [he2, assignAll_idem]
  | cons seg rest ih =>
    intro doc fs hnav r hr
    rw [nav] at hnav
    rw [patchNav] at hr
    cases hg : getProp (.val doc) seg with
    | error e => rw [hg] at hnav; exact Except.noConfusion hnav
    | ok c =>
      rw [hg] at hnav hr
      simp only at hnav hr
      cases hp : patchNav c rest kvs with
      | error e => rw [hp] at hr; exact Except.noConfusion hr
      | ok c1 =>
        rw [hp] at hr
        simp only [Except.ok.injEq] at hr
        cases c with
        | undefined =>
          have hu := nav_undef_ok rest _ hnav
          exact NavValue.noConfusion hu
        | val child =>
          obtain ⟨child1, hc1, hpp⟩ := ih child fs hnav c1 hp
          subst hc1
          cases doc with
          | null => exact absurd hg (by simp [getProp])
          | bool b => simp [getProp] at hg
          | num n => simp [getProp] at hg
          | str s => simp [getProp] at hg
          | obj ofs =>
            cases hlk : lookupField ofs (segAsKey seg) with
            | none => simp [getProp, hlk] at hg
            | some child0 =>
              simp [getProp, hlk] at hg
              subst hg
              refine ⟨.obj (setKey ofs (segAsKey seg) child1), by rw [← hr]; rfl, ?_⟩
              have hg2 : getProp (.val (.obj (setKey ofs (segAsKey seg) child1))) seg =
                  .ok (.val child1) := by
                simp [getProp, lookupField_setKey_self]
              simp [patchNav, hg2, hpp, setChildNav, setKey_setKey_same]
          | arr xs =>
            cases hsi : segAsIndex seg with
            | none => simp [getProp, hsi] at hg
            | some i =>
              simp only [getProp, hsi, Except.ok.injEq] at hg
              cases hx : xs[i]? with
              | none => rw [hx] at hg; exact NavValue.noConfusion hg
              | some child0 =>
                rw [hx] at hg
                have hchild : child0 = child := NavValue.val.inj hg
                subst hchild
                have hlen : i < xs.length := getElem?_lt_length xs i child0 hx
                refine ⟨.arr (xs.set i child1), by rw [← hr]; simp [setChildNav, hsi], ?_⟩
                have hg2 : getProp (.val (.arr (xs.set i child1))) seg = .ok (.val child1) := by
                  simp [getProp, hsi, getElem?_set_lt xs i child1 hlen]
                simp [patchNav, hg2, hpp, setChildNav, hsi, set_set_same]

/-- C4: patching a document at a path that resolves to a map subtree with
the same non-empty update list twice yields the same tree as patching once,
because every update is applied as an overwriting assignment
`subtree[update.key] = update.newValue`. -/
theorem applyUpdates_idempotent (doc : JValue) (path : List Seg) (rows : List Row)
    (updates : List Update) (hne : updates ≠ [])
    (fs : List (String × JValue))
    (hnav : nav (.val doc) path = .ok (.val (.obj fs)))
    (d1 : JValue)
    (h1 : applyUpdatesDoc doc path rows updates = .ok (.val d1)) :
    applyUpdatesDoc d1 path rows updates = .ok (.val d1) := by
  obtain ⟨d1', hd1', hp⟩ :=
    patch_idem_aux (updateAssignments rows updates) path doc fs hnav (.val d1) h1
  injection hd1' with h
  subst h
  exact hp

/-- Witness for C4 at the spec's end-to-end example. -/
theorem applyUpdates_idempotent_witness :
    applyUpdatesDoc
      (.obj [("customer", .obj [("name", .str "Bob"), ("age", .num 31)])])
      [.str "customer"]
      [⟨some "name", .str "Bob", "string"⟩, ⟨some "age", .num 30, "number"⟩]
      [⟨1, .num 31⟩] =
    .ok (.val (.obj [("customer", .obj [("name", .str "Bob"), ("age", .num 31)])])) :=
  applyUpdates_idempotent
    (.obj [("customer", .obj [("name", .str "Bob"), ("age", .num 30)])])
    [.str "customer"]
    [⟨some "name", .str "Bob", "string"⟩, ⟨some "age", .num 30, "number"⟩]
    [⟨1, .num 31⟩]
    (List.cons_ne_nil _ _)
    [("name", .str "Bob"), ("age", .num 30)]
    rfl
    (.obj [("customer", .obj [("name", .str "Bob"), ("age", .num 31)])])
    rfl

/-- Containers are the values whose properties can be navigated into. -/
def isContainer : JValue → Bool
  | .obj _ => true
  | .arr _ => true
  | _ => false

lemma nav_append (p q : List Seg) : ∀ nv : NavValue,
    nav nv (p ++ q) =
      (match nav nv p with
        | .error e => .error e
        | .ok t => nav t q) := by
  induction p with
  | nil => intro nv; simp [nav]
  | cons s p' ih =>
    intro nv
    rw [List.cons_append, nav]
    cases hg : getProp nv s with
    | error e => simp [nav, hg]
    | ok c => simp [nav, hg, ih c]

lemma patchNav_error_of_nav (kvs : List (String × JValue)) (p : List Seg) :
    ∀ nv : NavValue, nav nv p = .error () → patchNav nv p kvs = .error () := by
  induction p with
  | nil => intro nv h; simp [nav] at h
  | cons s rest ih =>
    intro nv h
    rw [nav] at h
    rw [patchNav]
    cases hg : getProp nv s with
    | error e => rfl
    | ok c =>
      rw [hg] at h
      simp only at h
      simp only
      rw [ih c h]

lemma patchNav_error_of_assign (kvs : List (String × JValue)) (p : List Seg) :
    ∀ (nv t : NavValue), nav nv p = .ok t → assignNav t kvs = .error () →
    patchNav nv p kvs = .error () := by
  induction p with
  | nil =>
    intro nv t h ha
    simp [nav] at h
    rw [patchNav, h, ha]
  | cons s rest ih =>
    intro nv t h ha
    rw [nav] at h
    rw [patchNav]
    cases hg : getProp nv s with
    | error e => rfl
    | ok c =>
      rw [hg] at h
      simp only at h
      simp only
      rw [ih c t h ha]

lemma getProp_scalar (v : JValue) (hc : isContainer v = false) (hn : v ≠ JValue.null)
    (s : Seg) : getProp (.val v) s = .ok .undefined := by
  cases v with
  | null => exact absurd rfl hn
  | bool b => rfl
  | num n => rfl
  | str t => rfl
  | arr xs => simp [isContainer] at hc
  | obj fs => simp [isContainer] at hc

lemma assignNav_undef_error (kvs : List (String × JValue)) (h : kvs ≠ []) :
    assignNav .undefined kvs = .error () := by
  cases kvs with
  | nil => exact absurd rfl h
  | cons p t => rfl

/-- C5: if some path-segment lookup before the end of the path yields a
non-container value or a missing key / out-of-range index (modelled:
navigating a proper prefix of the path reaches `undefined` or a
non-container value), then the Document Patcher fails with an error — the
save's assignments are never applied and no serialized text is produced —
provided at least one update resolves to an assignable row key. -/
theorem applyUpdates_path_failure (doc : JValue) (path : List Seg) (rows : List Row)
    (updates : List Update)
    (hkvs : updateAssignments rows updates ≠ [])
    (i : Nat) (hi : i + 1 < path.length)
    (nv : NavValue)
    (hnav : nav (.val doc) (path.take (i + 1)) = .ok nv)
    (hbad : nv = .undefined ∨ ∃ v, nv = .val v ∧ isContainer v = false) :
    applyUpdatesDoc doc path rows updates = .error () := by
  have hql : (path.drop (i + 1)).length = path.length - (i + 1) := List.length_drop _ _
  have hqpos : 0 < (path.drop (i + 1)).length := by omega
  have hfull : nav (.val doc) path =
      (match nav nv (path.drop (i + 1)) with
        | .error e => .error e
        | .ok t => .ok t) := by
    conv_lhs => rw [← List.take_append_drop (i + 1) path]
    rw [nav_append, hnav]
    simp only
    cases nav nv (path.drop (i + 1)) with
    | error e => rfl
    | ok t => rfl
  cases hq : path.drop (i + 1) with
  | nil => rw [hq] at hqpos; simp at hqpos
  | cons s q' =>
    rw [hq] at hfull
    rcases hbad with hbad | ⟨v, hv, hc⟩
    · subst hbad
      have herr : nav (.val doc) path = .error () := by
        rw [hfull]
        simp [nav, getProp]
      exact patchNav_error_of_nav _ _ _ herr
    · subst hv
      by_cases hn : v = JValue.null
      · subst hn
        have herr : nav (.val doc) path = .error () := by
          rw [hfull]
          simp [nav, getProp]
        exact patchNav_error_of_nav _ _ _ herr
      · have hstep : getProp (.val v) s = .ok .undefined := getProp_scalar v hc hn s
        cases q' with
        | nil =>
          have hok : nav (.val doc) path = .ok .undefined := by
            rw [hfull]
            simp [nav, hstep]
          exact patchNav_error_of_assign _ _ _ _ hok
            (assignNav_undef_error _ hkvs)
        | cons s2 q2 =>
          have herr : nav (.val doc) path = .error () := by
            rw [hfull]
            rw [nav, hstep]
            simp only
            rw [nav, show getProp .undefined s2 = .error () from rfl]
          exact patchNav_error_of_nav _ _ _ herr

/-- Witness for C5: patching `{"customer": {...}}` along `["missing", "x"]`
fails (the first lookup yields `undefined` with one segment still to go). -/
theorem applyUpdates_path_failure_witness :
    applyUpdatesDoc
      (.obj [("customer", .obj [("name", .str "Bob"), ("age", .num 30)])])
      [.str "missing", .str "x"]
      [⟨some "age", .num 30, "number"⟩]
      [⟨0, .num 31⟩] = .error () :=
  applyUpdates_path_failure
    (.obj [("customer", .obj [("name", .str "Bob"), ("age", .num 30)])])
    [.str "missing", .str "x"]
    [⟨some "age", .num 30, "number"⟩]
    [⟨0, .num 31⟩]
    (by
      intro h
      rw [show updateAssignments [⟨some "age", JValue.num 30, "number"⟩] [⟨0, JValue.num 31⟩] =
        [("age", JValue.num 31)] from rfl] at h
      exact List.noConfusion h)
    0 (by decide)
    .undefined
    rfl
    (Or.inl rfl)

/-- C7: a save whose computed diff is empty transitions straight back to
Viewing with no further action: for every node-store update function the
node list is unchanged (the update contract is never invoked), the document
text is neither modified nor is a parse failure logged, the selected node
and edit fields stay, and no view refresh is requested — only the editing
flag is cleared. -/
theorem handleSave_noop
    (f : String → List Update → List NodeData → List NodeData)
    (s : AppState) (nodeData : NodeData)
    (hsel : s.selectedNode = some nodeData)
    (hempty : computeUpdates nodeData.text s.editFields = []) :
    handleSaveClick f s = { s with isEditing := false } := by
  simp [handleSaveClick, hsel, hempty]

/-- Witness for C7: a selected node with no rows diffs to nothing and the
save only clears the editing flag. -/
theorem handleSave_noop_witness :
    handleSaveClick (fun _ _ ns => ns)
      { nodes := [], selectedNode := some ⟨"n1", none, []⟩, contents := "x",
        isEditing := true, editFields := fun _ => none, errorLog := [],
        refreshKey := 0, codeRefreshKey := 0 } =
    { nodes := [], selectedNode := some ⟨"n1", none, []⟩, contents := "x",
      isEditing := false, editFields := fun _ => none, errorLog := [],
      refreshKey := 0, codeRefreshKey := 0 } :=
  handleSave_noop (fun _ _ ns => ns)
    { nodes := [], selectedNode := some ⟨"n1", none, []⟩, contents := "x",
      isEditing := true, editFields := fun _ => none, errorLog := [],
      refreshKey := 0, codeRefreshKey := 0 }
    ⟨"n1", none, []⟩ rfl rfl

/-- C2: when the document-sync step of a non-empty save fails — the stored
text does not parse, or patching at the located node's path fails — the
failure is absorbed inside the save (the operation still returns a state),
one report is appended to the operational log, the Node Store update
already applied is retained (the node list holds exactly the update
function's result), and the document text is left unchanged; editing still
ends. -/
theorem handleSave_syncFailure
    (f : String → List Update → List NodeData → List NodeData)
    (s : AppState) (nodeData : NodeData)
    (hsel : s.selectedNode = some nodeData)
    (hne : computeUpdates nodeData.text s.editFields ≠ [])
    (hfail :
      parseJson s.contents = none ∨
      ∃ parsed nodeToUpdate p,
        parseJson s.contents = some parsed ∧
        (f nodeData.id (computeUpdates nodeData.text s.editFields) s.nodes).find?
            (fun n => n.id == nodeData.id) = some nodeToUpdate ∧
        nodeToUpdate.path = some p ∧
        applyUpdatesDoc parsed p nodeToUpdate.text
          (computeUpdates nodeData.text s.editFields) = .error ()) :
    (handleSaveClick f s).contents = s.contents ∧
    (handleSaveClick f s).nodes =
      f nodeData.id (computeUpdates nodeData.text s.editFields) s.nodes ∧
    (handleSaveClick f s).errorLog = s.errorLog ++ [syncMessage] ∧
    (handleSaveClick f s).isEditing = false := by
  have hie : (computeUpdates nodeData.text s.editFields).isEmpty = false := by
    cases h : computeUpdates nodeData.text s.editFields with
    | nil => exact absurd h hne
    | cons u t => rfl
  rcases hfail with hp | ⟨parsed, nodeToUpdate, p, hp, hfind, hpath, herr⟩
  · simp only [handleSaveClick, hsel, hie]
    simp only [Bool.false_eq_true, if_false, hp]
    cases hfind : (f nodeData.id (computeUpdates nodeData.text s.editFields) s.nodes).find?
        (fun n => n.id == nodeData.id) with
    | none => simp [hfind]
    | some updatedNode => simp [hfind]
  · simp only [handleSaveClick, hsel, hie]
    simp only [Bool.false_eq_true, if_false, hp, hfind, hpath, herr]
    simp [hfind]

/-- Witness for C2: unparseable stored text `"oops"`; the node update is
kept, the text is untouched, and one report is logged. -/
theorem handleSave_syncFailure_witness :
    (handleSaveClick (fun _ _ ns => ns)
      { nodes := [⟨"n1", some [], [⟨some "a", JValue.num 1, "number"⟩]⟩],
        selectedNode := some ⟨"n1", some [], [⟨some "a", JValue.num 1, "number"⟩]⟩,
        contents := "oops", isEditing := true,
        editFields := fun k => if k = "a" then some "2" else none,
        errorLog := [], refreshKey := 0, codeRefreshKey := 0 }).contents = "oops" ∧
    (handleSaveClick (fun _ _ ns => ns)
      { nodes := [⟨"n1", some [], [⟨some "a", JValue.num 1, "number"⟩]⟩],
        selectedNode := some ⟨"n1", some [], [⟨some "a", JValue.num 1, "number"⟩]⟩,
        contents := "oops", isEditing := true,
        editFields := fun k => if k = "a" then some "2" else none,
        errorLog := [], refreshKey := 0, codeRefreshKey := 0 }).nodes =
      [⟨"n1", some [], [⟨some "a", JValue.num 1, "number"⟩]⟩] ∧
    (handleSaveClick (fun _ _ ns => ns)
      { nodes := [⟨"n1", some [], [⟨some "a", JValue.num 1, "number"⟩]⟩],
        selectedNode := some ⟨"n1", some [], [⟨some "a", JValue.num 1, "number"⟩]⟩,
        contents := "oops", isEditing := true,
        editFields := fun k => if k = "a" then some "2" else none,
        errorLog := [], refreshKey := 0, codeRefreshKey := 0 }).errorLog =
      [syncMessage] ∧
    (handleSaveClick (fun _ _ ns => ns)
      { nodes := [⟨"n1", some [], [⟨some "a", JValue.num 1, "number"⟩]⟩],
        selectedNode := some ⟨"n1", some [], [⟨some "a", JValue.num 1, "number"⟩]⟩,
        contents := "oops", isEditing := true,
        editFields := fun k => if k = "a" then some "2" else none,
        errorLog := [], refreshKey := 0, codeRefreshKey := 0 }).isEditing = false :=
  handleSave_syncFailure (fun _ _ ns => ns)
    { nodes := [⟨"n1", some [], [⟨some "a", JValue.num 1, "number"⟩]⟩],
      selectedNode := some ⟨"n1", some [], [⟨some "a", JValue.num 1, "number"⟩]⟩,
      contents := "oops", isEditing := true,
      editFields := fun k => if k = "a" then some "2" else none,
      errorLog := [], refreshKey := 0, codeRefreshKey := 0 }
    ⟨"n1", some [], [⟨some "a", JValue.num 1, "number"⟩]⟩
    rfl
    (by
      intro h
      rw [show computeUpdates [⟨some "a", JValue.num 1, "number"⟩]
          (fun k => if k = "a" then some "2" else none) =
          [⟨0, JValue.num 2⟩] from rfl] at h
      exact List.noConfusion h)
    (Or.inl rfl)

/-- C10: at save time with a non-empty diff and parseable text, if no node
with the edited node's id is found in the (already updated) node list, or
the found node has no path, the document sync is silently skipped: the text
is unchanged, nothing is logged (unlike parse and patch failures), the
already-applied node update is retained, and the save still completes back
to Viewing with the refresh keys bumped. -/
theorem handleSave_missingNode
    (f : String → List Update → List NodeData → List NodeData)
    (s : AppState) (nodeData : NodeData) (parsed : JValue)
    (hsel : s.selectedNode = some nodeData)
    (hne : computeUpdates nodeData.text s.editFields ≠ [])
    (hparse : parseJson s.contents = some parsed)
    (hmiss :
      (f nodeData.id (computeUpdates nodeData.text s.editFields) s.nodes).find?
          (fun n => n.id == nodeData.id) = none ∨
      ∃ n, (f nodeData.id (computeUpdates nodeData.text s.editFields) s.nodes).find?
          (fun n => n.id == nodeData.id) = some n ∧ n.path = none) :
    (handleSaveClick f s).contents = s.contents ∧
    (handleSaveClick f s).errorLog = s.errorLog ∧
    (handleSaveClick f s).nodes =
      f nodeData.id (computeUpdates nodeData.text s.editFields) s.nodes ∧
    (handleSaveClick f s).isEditing = false ∧
    (handleSaveClick f s).refreshKey = s.refreshKey + 1 ∧
    (handleSaveClick f s).codeRefreshKey = s.codeRefreshKey + 1 := by
  have hie : (computeUpdates nodeData.text s.editFields).isEmpty = false := by
    cases h : computeUpdates nodeData.text s.editFields with
    | nil => exact absurd h hne
    | cons u t => rfl
  rcases hmiss with hfind | ⟨n, hfind, hpath⟩
  · simp only [handleSaveClick, hsel, hie]
    simp only [Bool.false_eq_true, if_false, hparse, hfind]
    simp [hfind]
  · simp only [handleSaveClick, hsel, hie]
    simp only [Bool.false_eq_true, if_false, hparse, hfind, hpath]
    simp [hfind]

/-- Witness for C10: the update function empties the node list, so the
edited node is not found; the save is silent and still completes. -/
theorem handleSave_missingNode_witness :
    (handleSaveClick (fun _ _ _ => [])
      { nodes := [⟨"n1", some [], [⟨some "a", JValue.num 1, "number"⟩]⟩],
        selectedNode := some ⟨"n1", some [], [⟨some "a", JValue.num 1, "number"⟩]⟩,
        contents := "\x7b\x7d", isEditing := true,
        editFields := fun k => if k = "a" then some "2" else none,
        errorLog := [], refreshKey := 0, codeRefreshKey := 0 }).contents = "\x7b\x7d" ∧
    (handleSaveClick (fun _ _ _ => [])
      { nodes := [⟨"n1", some [], [⟨some "a", JValue.num 1, "number"⟩]⟩],
        selectedNode := some ⟨"n1", some [], [⟨some "a", JValue.num 1, "number"⟩]⟩,
        contents := "\x7b\x7d", isEditing := true,
        editFields := fun k => if k = "a" then some "2" else none,
        errorLog := [], refreshKey := 0, codeRefreshKey := 0 }).errorLog = [] ∧
    (handleSaveClick (fun _ _ _ => [])
      { nodes := [⟨"n1", some [], [⟨some "a", JValue.num 1, "number"⟩]⟩],
        selectedNode := some ⟨"n1", some [], [⟨some "a", JValue.num 1, "number"⟩]⟩,
        contents := "\x7b\x7d", isEditing := true,
        editFields := fun k => if k = "a" then some "2" else none,
        errorLog := [], refreshKey := 0, codeRefreshKey := 0 }).nodes = [] ∧
    (handleSaveClick (fun _ _ _ => [])
      { nodes := [⟨"n1", some [], [⟨some "a", JValue.num 1, "number"⟩]⟩],
        selectedNode := some ⟨"n1", some [], [⟨some "a", JValue.num 1, "number"⟩]⟩,
        contents := "\x7b\x7d", isEditing := true,
        editFields := fun k => if k = "a" then some "2" else none,
        errorLog := [], refreshKey := 0, codeRefreshKey := 0 }).isEditing = false ∧
    (handleSaveClick (fun _ _ _ => [])
      { nodes := [⟨"n1", some [], [⟨some "a", JValue.num 1, "number"⟩]⟩],
        selectedNode := some ⟨"n1", some [], [⟨some "a", JValue.num 1, "number"⟩]⟩,
        contents := "\x7b\x7d", isEditing := true,
        editFields := fun k => if k = "a" then some "2" else none,
        errorLog := [], refreshKey := 0, codeRefreshKey := 0 }).refreshKey = 1 ∧
    (handleSaveClick (fun _ _ _ => [])
      { nodes := [⟨"n1", some [], [⟨some "a", JValue.num 1, "number"⟩]⟩],
        selectedNode := some ⟨"n1", some [], [⟨some "a", JValue.num 1, "number"⟩]⟩,
        contents := "\x7b\x7d", isEditing := true,
        editFields := fun k => if k = "a" then some "2" else none,
        errorLog := [], refreshKey := 0, codeRefreshKey := 0 }).codeRefreshKey = 1 :=
  handleSave_missingNode (fun _ _ _ => [])
    { nodes := [⟨"n1", some [], [⟨some "a", JValue.num 1, "number"⟩]⟩],
      selectedNode := some ⟨"n1", some [], [⟨some "a", JValue.num 1, "number"⟩]⟩,
      contents := "\x7b\x7d", isEditing := true,
      editFields := fun k => if k = "a" then some "2" else none,
      errorLog := [], refreshKey := 0, codeRefreshKey := 0 }
    ⟨"n1", some [], [⟨some "a", JValue.num 1, "number"⟩]⟩
    (.obj [])
    rfl
    (by
      intro h
      rw [show computeUpdates [⟨some "a", JValue.num 1, "number"⟩]
          (fun k => if k = "a" then some "2" else none) =
          [⟨0, JValue.num 2⟩] from rfl] at h
      exact List.noConfusion h)
    rfl
    (Or.inl rfl)
